import Mathlib

/-!
Verification of the SWR caching layer of convex-swr-jotai
(src/hooks/use-query-swr.ts) against its specification.

The development shallowly embeds the hook module: JavaScript runtime values
become the inductive type JsValue, the process-wide jotai cache atom becomes an
association list from string keys to values, and each hook is modelled as a
pure evaluation function from (derived key, live result, cache snapshot) to
(rendered value, cache after the deferred effect).  The key deriver
createQueryKey is embedded together with models of its external dependencies
(getFunctionName, convexToJson, JSON.stringify).
-/

/-- Model of a JavaScript runtime value.  The constructor undef is the
distinguished loading sentinel (the JS value undefined); null is the JS null.
Function values (such as loadMore closures) are opaque tokens identified by a
tag.  Numbers are modelled as integers: no arithmetic is performed on payload
values by the code under verification. -/
inductive JsValue where
  | undef
  | null
  | bool (b : Bool)
  | num (n : Int)
  | str (s : String)
  | arr (elems : List JsValue)
  | obj (fields : List (String × JsValue))
  | fn (tag : Nat)

/-- Read a property from a JS record (string-keyed object), yielding the JS
value undefined when the property is absent, as JS property access does. -/
def getField (l : List (String × JsValue)) (k : String) : JsValue :=
  match l with
  | [] => JsValue.undef
  | (k1, v) :: rest => if k1 = k then v else getField rest k

/-- Model of the JS object spread update pattern with a computed property,
as in the source's cache updates: an existing property keeps its position and
receives the new value, a new property is appended at the end. -/
def setField (l : List (String × JsValue)) (k : String) (v : JsValue) :
    List (String × JsValue) :=
  match l with
  | [] => [(k, v)]
  | (k1, v1) :: rest => if k1 = k then (k, v) :: rest else (k1, v1) :: setField rest k v

/-- Model of the JS delete operator on a record: the property under the key is
removed, every other property is kept. -/
def delField (l : List (String × JsValue)) (k : String) : List (String × JsValue) :=
  l.filter (fun p => decide (p.1 ≠ k))

/-- Test for the loading sentinel, the JS strict comparison v === undefined. -/
def isUndef : JsValue → Bool
  | JsValue.undef => true
  | _ => false

/-- Test for JS nullish values: undefined or null.  The JS nullish coalescing
operator a ?? b keys on exactly this test. -/
def isNullish : JsValue → Bool
  | JsValue.undef => true
  | JsValue.null => true
  | _ => false

/-- Model of the JS nullish coalescing operator a ?? b. -/
def nullish (a b : JsValue) : JsValue :=
  if isNullish a then b else a

/-- Property access v.f on a JS value.  All property reads performed by the
source occur on plain objects; on other values the model yields undefined. -/
def jsGet (v : JsValue) (f : String) : JsValue :=
  match v with
  | JsValue.obj fields => getField fields f
  | _ => JsValue.undef

/-- Model of the JS object spread with an overriding property, the source's
return expression spreading finalResult and replacing loadMore.  A non-object
operand spreads no own fields. -/
def objSpreadSet (v : JsValue) (f : String) (x : JsValue) : JsValue :=
  match v with
  | JsValue.obj fields => JsValue.obj (setField fields f x)
  | _ => JsValue.obj (setField [] f x)

/-- Strict equality comparison of a JS value with a string literal, the
source's result.status === 'LoadingFirstPage' style tests. -/
def jsEqStr (v : JsValue) (s : String) : Bool :=
  match v with
  | JsValue.str t => decide (t = s)
  | _ => false

/-- The process-wide cache stored in the jotai atom cacheAtom: a string-keyed
record of previously observed results (Record string unknown in the source). -/
abbrev Cache := List (String × JsValue)

/-- Reading store.get(cacheAtom)[key]: undefined when the key is absent. -/
def cacheGet (c : Cache) (k : String) : JsValue := getField c k

/-- The cache update store.set(cacheAtom, spread of the old cache with key
mapped to v). -/
def cacheSet (c : Cache) (k : String) (v : JsValue) : Cache := setField c k v

/-- The cache invalidation used by the paginated wrapper's loadMore: copy the
cache and delete the entry under the key. -/
def cacheDelete (c : Cache) (k : String) : Cache := delField c k

/-- The feature flag FEATURE_FLAG_USE_QUERY_SWR from the source, set to true. -/
def FEATURE_FLAG_USE_QUERY_SWR : Bool := true

/-- One evaluation of the useQuerySwr wrapper body for a derived key, a live
result from the underlying useQuery subscription, and the current cache
snapshot.  The first component is the rendered return value (computed against
the snapshot read during render); the second is the cache after the deferred
effect, which writes the live result whenever it is not the sentinel. -/
def useQuerySwr_eval (key : String) (result : JsValue) (cache : Cache) :
    JsValue × Cache :=
  let cache2 := if isUndef result then cache else cacheSet cache key result
  let stale := cacheGet cache key
  let ret := if isUndef result then nullish stale result else result
  (ret, cache2)

/-- The isLoading computation of useQueriesSwr: some named sub-result of the
live batch record is the sentinel.  The live batch record returned by
useQueries is itself never nullish, so the defensive fallback of the source
(result ?? a record with one undefined member) coincides with result. -/
def queriesIsLoading (result : List (String × JsValue)) : Bool :=
  (result.map Prod.snd).any isUndef

/-- One evaluation of the useQueriesSwr wrapper body for the composite key,
the live batch record from useQueries, and the current cache snapshot.  The
deferred effect writes the entire batch record whenever the batch is not
loading; the rendered value substitutes the cached batch while loading. -/
def useQueriesSwr_eval (key : String) (result : List (String × JsValue))
    (cache : Cache) : JsValue × Cache :=
  let isLoading := queriesIsLoading result
  let cache2 := if isLoading then cache else cacheSet cache key (JsValue.obj result)
  let stale := cacheGet cache key
  let ret := if isLoading then nullish stale (JsValue.obj result) else JsValue.obj result
  (ret, cache2)

/-- One evaluation of the usePaginatedQuerySwr wrapper body.  The live result
is the object returned by usePaginatedQuery; wrappedLoadMore is the wrapping
loadMore callback installed on the returned object.  The deferred effect
writes the live result whenever its status is neither LoadingMore nor
LoadingFirstPage; the rendered value substitutes the cached entry while the
status is LoadingFirstPage, and always carries the wrapping loadMore. -/
def usePaginatedQuerySwr_eval (key : String) (result : JsValue)
    (wrappedLoadMore : JsValue) (cache : Cache) : JsValue × Cache :=
  let status := jsGet result "status"
  let cache2 :=
    if !(jsEqStr status "LoadingMore") && !(jsEqStr status "LoadingFirstPage") then
      cacheSet cache key result
    else cache
  let stale := cacheGet cache key
  let finalResult :=
    if jsEqStr status "LoadingFirstPage" then nullish stale result else result
  (objSpreadSet finalResult "loadMore" wrappedLoadMore, cache2)

/-- Observable steps taken by the wrapping loadMore callback, in order. -/
inductive LoadMoreEvent where
  | cacheDeleted (key : String)
  | delegated (numItems : Nat)
deriving DecidableEq

/-- The wrapping loadMore callback of usePaginatedQuerySwr: it deletes the
cache entry for the current key and only afterwards delegates to the
underlying pagination mechanism's own loadMore.  The event list records the
order of the two steps. -/
def loadMoreSwr (key : String) (numItems : Nat) (cache : Cache) :
    Cache × List LoadMoreEvent :=
  (cacheDelete cache key,
    [LoadMoreEvent.cacheDeleted key, LoadMoreEvent.delegated numItems])

/-- The underlying useQuery hook as observed through one evaluation: it
returns the live result and neither reads nor writes the cache. -/
def useQuery_model (result : JsValue) (cache : Cache) : JsValue × Cache :=
  (result, cache)

/-- The underlying useQueries hook as observed through one evaluation. -/
def useQueries_model (result : List (String × JsValue)) (cache : Cache) :
    JsValue × Cache :=
  (JsValue.obj result, cache)

/-- The underlying usePaginatedQuery hook as observed through one evaluation:
the live result object is returned unchanged, its own loadMore included. -/
def usePaginatedQuery_model (result : JsValue) (cache : Cache) : JsValue × Cache :=
  (result, cache)

/-- The exported useQuerySwr: the source selects at module initialization
between the plain useQuery hook (flag false) and the wrapper body. -/
def useQuerySwr_run (flag : Bool) (key : String) (result : JsValue)
    (cache : Cache) : JsValue × Cache :=
  if !flag then useQuery_model result cache else useQuerySwr_eval key result cache

/-- The exported useQueriesSwr under a given flag value. -/
def useQueriesSwr_run (flag : Bool) (key : String)
    (result : List (String × JsValue)) (cache : Cache) : JsValue × Cache :=
  if !flag then useQueries_model result cache else useQueriesSwr_eval key result cache

/-- The exported usePaginatedQuerySwr under a given flag value. -/
def usePaginatedQuerySwr_run (flag : Bool) (key : String) (result : JsValue)
    (wrappedLoadMore : JsValue) (cache : Cache) : JsValue × Cache :=
  if !flag then usePaginatedQuery_model result cache
  else usePaginatedQuerySwr_eval key result wrappedLoadMore cache

/-- The loadMore callback reaching the consumer under a given flag value: with
the flag disabled it is the underlying loadMore, which performs no cache
access and only delegates. -/
def loadMore_run (flag : Bool) (key : String) (numItems : Nat) (cache : Cache) :
    Cache × List LoadMoreEvent :=
  if !flag then (cache, [LoadMoreEvent.delegated numItems])
  else loadMoreSwr key numItems cache

/-- The exported useQuerySwr with the flag as committed in the source. -/
def useQuerySwr (key : String) (result : JsValue) (cache : Cache) :
    JsValue × Cache :=
  useQuerySwr_run FEATURE_FLAG_USE_QUERY_SWR key result cache

/-- The exported useQueriesSwr with the flag as committed in the source. -/
def useQueriesSwr (key : String) (result : List (String × JsValue))
    (cache : Cache) : JsValue × Cache :=
  useQueriesSwr_run FEATURE_FLAG_USE_QUERY_SWR key result cache

/-- The exported usePaginatedQuerySwr with the flag as committed in the
source. -/
def usePaginatedQuerySwr (key : String) (result : JsValue)
    (wrappedLoadMore : JsValue) (cache : Cache) : JsValue × Cache :=
  usePaginatedQuerySwr_run FEATURE_FLAG_USE_QUERY_SWR key result wrappedLoadMore cache

/-!
The key deriver.  createQueryKey (source lines 184-192) is
JSON.stringify of the pair of the canonical function name and the canonical
Convex JSON encoding of the arguments.  getFunctionName, convexToJson and
JSON.stringify live in external libraries (convex/server, convex/values and
the JS runtime), so they are modelled from the spec below.
-/

/-- A Convex query function reference, identified by its canonical name.
Modelled from the spec: a Query Identity is an opaque comparable reference
resolving to a canonical name string (the convex/server FunctionReference). -/
structure QueryRef where
  name : String
deriving DecidableEq

/-- Modelled from the spec: getFunctionName from convex/server resolves a
function reference to its canonical name string. -/
def getFunctionName (q : QueryRef) : String := q.name

/-- A Convex argument value: the serializable value universe accepted by
query functions. -/
inductive ConvexValue where
  | null
  | boolean (b : Bool)
  | number (n : Int)
  | string (s : String)
  | array (elems : List ConvexValue)
  | object (fields : List (String × ConvexValue))

/-- A JSON document, the target of the canonical encoding and the input of
the serializer. -/
inductive Json where
  | null
  | bool (b : Bool)
  | num (n : Int)
  | str (s : String)
  | arr (elems : List Json)
  | obj (fields : List (String × Json))

/-- Comparison of two character lists in lexicographic order of code points,
used to canonically sort object fields by name.  (The library order on String
is not kernel-reducible, so the order is spelled out on the character data.) -/
def strLeAux : List Char → List Char → Bool
  | [], _ => true
  | _ :: _, [] => false
  | c1 :: t1, c2 :: t2 => if c1 = c2 then strLeAux t1 t2 else decide (c1.toNat < c2.toNat)

/-- Total order on strings used for canonical field sorting. -/
def strLe (s1 s2 : String) : Bool := strLeAux s1.data s2.data

/-- Ordering of JSON object fields by name under the canonical order. -/
def fieldLe (p q : String × Json) : Prop := strLe p.1 q.1 = true

instance : DecidableRel fieldLe := fun p q =>
  inferInstanceAs (Decidable (strLe p.1 q.1 = true))

/-- Canonical sorting of a JSON object's fields by name. -/
def sortFields (fs : List (String × Json)) : List (String × Json) :=
  List.insertionSort fieldLe fs

mutual

/-- Modelled from the spec: convexToJson from convex/values, the canonical
JSON encoding of a Convex value.  The spec's Query Key invariant demands that
semantically equal argument objects produce identical encodings regardless of
property insertion order, so object fields are canonically sorted by name. -/
def convexToJson : ConvexValue → Json
  | ConvexValue.null => Json.null
  | ConvexValue.boolean b => Json.bool b
  | ConvexValue.number n => Json.num n
  | ConvexValue.string s => Json.str s
  | ConvexValue.array xs => Json.arr (convexToJsonList xs)
  | ConvexValue.object fs => Json.obj (sortFields (convexToJsonFields fs))

/-- Elementwise canonical encoding of an array of Convex values. -/
def convexToJsonList : List ConvexValue → List Json
  | [] => []
  | x :: xs => convexToJson x :: convexToJsonList xs

/-- Fieldwise canonical encoding of a Convex object's fields. -/
def convexToJsonFields : List (String × ConvexValue) → List (String × Json)
  | [] => []
  | (k, v) :: fs => (k, convexToJson v) :: convexToJsonFields fs

end

/-- Decimal digit character for a digit value below ten. -/
def digitChar (d : Nat) : Char := Char.ofNat (48 + d)

/-- Decimal digit characters of a natural number, most significant first,
written with explicit fuel so that the function is structurally recursive and
kernel-evaluable.  The fuel is always instantiated with the number itself. -/
def natStrAux (fuel n : Nat) : List Char :=
  match fuel with
  | 0 => []
  | fuel1 + 1 => if n = 0 then [] else natStrAux fuel1 (n / 10) ++ [digitChar (n % 10)]

/-- Decimal representation of a natural number. -/
def natStr (n : Nat) : List Char :=
  if n = 0 then ['0'] else natStrAux n n

/-- Decimal representation of an integer, as produced by JSON.stringify for
the integral numbers in the model. -/
def intStr (n : Int) : List Char :=
  if n < 0 then '-' :: natStr n.natAbs else natStr n.toNat

/-- Escape one character of a JSON string literal: quotes and backslashes are
escaped with a backslash, every other character stands for itself.  (Control
characters are not part of the modelled character universe of keys.) -/
def escChar (c : Char) : List Char :=
  if c = '"' then ['\\', '"']
  else if c = '\\' then ['\\', '\\']
  else [c]

/-- Escape the character data of a JSON string literal. -/
def escChars : List Char → List Char
  | [] => []
  | c :: cs => escChar c ++ escChars cs

mutual

/-- Modelled from the spec: the character stream produced by JSON.stringify,
the canonical JSON serialization used by the key deriver (external to the
repository).  Object fields are emitted in the order they appear, as the JS
runtime does. -/
def renderJson : Json → List Char
  | Json.null => ['n', 'u', 'l', 'l']
  | Json.bool true => ['t', 'r', 'u', 'e']
  | Json.bool false => ['f', 'a', 'l', 's', 'e']
  | Json.num n => intStr n
  | Json.str s => '"' :: (escChars s.data ++ ['"'])
  | Json.arr xs => '[' :: (renderArr xs ++ [']'])
  | Json.obj fs => '{' :: (renderObj fs ++ ['}'])

/-- Comma-separated serialization of array elements. -/
def renderArr : List Json → List Char
  | [] => []
  | [x] => renderJson x
  | x :: y :: xs => renderJson x ++ (',' :: renderArr (y :: xs))

/-- Comma-separated serialization of object fields, each field rendered as
quoted name, colon, value. -/
def renderObj : List (String × Json) → List Char
  | [] => []
  | [(k, v)] => '"' :: (escChars k.data ++ ('"' :: (':' :: renderJson v)))
  | (k, v) :: f :: fs =>
    ('"' :: (escChars k.data ++ ('"' :: (':' :: renderJson v)))) ++
      (',' :: renderObj (f :: fs))

end

/-- Serialization of one object field: quoted name, colon, value. -/
def renderEntry (k : String) (v : Json) : List Char :=
  '"' :: (escChars k.data ++ ('"' :: (':' :: renderJson v)))

/-- JSON.stringify as a function into strings. -/
def jsonStringify (v : Json) : String := String.mk (renderJson v)

/-- The key deriver createQueryKey from the source (lines 184-192): the
JSON serialization of the two-element array holding the canonical function
name and the canonical encoding of the arguments. -/
def createQueryKey (query : QueryRef) (args : ConvexValue) : String :=
  let queryString := getFunctionName query
  let key := Json.arr [Json.str queryString, convexToJson args]
  let queryKey := jsonStringify key
  queryKey

/-- The composite key computed by useQueriesSwr (source lines 48-56): the
record mapping each declared sub-query name, in declaration order, to the
per-name key derived by createQueryKey, serialized with JSON.stringify.  A
declaration is the ordered list of named (query reference, arguments) pairs
passed to the hook. -/
def queriesKey (queries : List (String × QueryRef × ConvexValue)) : String :=
  jsonStringify
    (Json.obj (queries.map (fun e => (e.1, Json.str (createQueryKey e.2.1 e.2.2)))))

/-- Formalization of the composite-key derivation as claim C8 words it: the
declaration itself is serialized directly, each name mapped to the pair of
its query's canonical name and canonically encoded arguments, with no
per-name key strings involved. -/
def declarationSerializedKey (queries : List (String × QueryRef × ConvexValue)) : String :=
  jsonStringify
    (Json.obj (queries.map (fun e =>
      (e.1, Json.arr [Json.str (getFunctionName e.2.1), convexToJson e.2.2]))))

/-- Strict variant of the field order: the names are strictly ordered.  On
field lists with pairwise distinct names this coincides with fieldLe and is
antisymmetric, which pins the sorted order down uniquely. -/
def fieldLt (p q : String × Json) : Prop := fieldLe p q ∧ p.1 ≠ q.1

/-- Admissible continuations for serializer unambiguity: a continuation must
not begin with a decimal digit, so that the end of a serialized number is
unambiguous.  Every continuation arising inside the serializer begins with a
comma, colon, closing bracket, closing brace or quote, or is empty. -/
def TailOk : List Char → Prop
  | [] => True
  | c :: _ => c.isDigit = false

/-- Syntactic class of a JSON document, used to discriminate serializations
by their first character. -/
def jsonTag : Json → Nat
  | Json.null => 0
  | Json.bool _ => 1
  | Json.num _ => 2
  | Json.str _ => 3
  | Json.arr _ => 4
  | Json.obj _ => 5

/-- Syntactic class determined by the first character of a serialization. -/
def headTag (c : Char) : Nat :=
  if c = 'n' then 0
  else if c = 't' then 1
  else if c = 'f' then 1
  else if c = '-' then 2
  else if c.isDigit then 2
  else if c = '"' then 3
  else if c = '[' then 4
  else if c = '{' then 5
  else 6

/-!
Basic lemmas about the record operations shared by the cache and by JS
objects.
-/

theorem getField_setField_self (l : List (String × JsValue)) (k : String) (v : JsValue) :
    getField (setField l k v) k = v := by
  induction l with
  | nil => simp [getField, setField]
  | cons p rest ih =>
    obtain ⟨k1, v1⟩ := p
    by_cases h : k1 = k
    · simp [getField, setField, h]
    · simp [getField, setField, h, ih]

theorem getField_setField_ne (l : List (String × JsValue)) (k k1 : String) (v : JsValue)
    (h : k1 ≠ k) : getField (setField l k v) k1 = getField l k1 := by
  have hk : ¬ k = k1 := fun hh => h hh.symm
  induction l with
  | nil => simp [getField, setField, hk]
  | cons p rest ih =>
    obtain ⟨k2, v2⟩ := p
    by_cases h2 : k2 = k
    · subst h2
      simp [getField, setField, hk]
    · simp only [setField, if_neg h2, getField]
      by_cases h3 : k2 = k1
      · simp [h3]
      · simp [h3, ih]

theorem getField_delField_self (l : List (String × JsValue)) (k : String) :
    getField (delField l k) k = JsValue.undef := by
  induction l with
  | nil => rfl
  | cons p rest ih =>
    obtain ⟨k1, v1⟩ := p
    by_cases h : k1 = k
    · simpa [delField, List.filter_cons, h] using ih
    · simpa [delField, List.filter_cons, h, getField] using ih

theorem getField_delField_ne (l : List (String × JsValue)) (k k1 : String)
    (h : k1 ≠ k) : getField (delField l k) k1 = getField l k1 := by
  induction l with
  | nil => rfl
  | cons p rest ih =>
    obtain ⟨k2, v2⟩ := p
    by_cases h2 : k2 = k
    · have hk21 : ¬ k2 = k1 := by
        rw [h2]
        exact fun hh => h hh.symm
      have hstep : delField ((k2, v2) :: rest) k = delField rest k := by
        simp [delField, List.filter_cons, h2]
      rw [hstep, ih]
      simp [getField, hk21]
    · by_cases h3 : k2 = k1
      · simp [delField, List.filter_cons, h2, h3, getField, h]
      · simpa [delField, List.filter_cons, h2, h3, getField] using ih

theorem isUndef_eq_false (v : JsValue) (h : v ≠ JsValue.undef) : isUndef v = false := by
  cases v <;> first | exact absurd rfl h | rfl

theorem isUndef_eq_true (v : JsValue) (h : isUndef v = true) : v = JsValue.undef := by
  cases v <;> simp_all [isUndef]

theorem nullish_of_not_nullish (a b : JsValue) (h : isNullish a = false) :
    nullish a b = a := by
  simp [nullish, h]

theorem jsGet_objSpreadSet_self (v : JsValue) (f : String) (x : JsValue) :
    jsGet (objSpreadSet v f x) f = x := by
  cases v <;> simp [objSpreadSet, jsGet, getField_setField_self]

theorem jsGet_objSpreadSet_ne (v : JsValue) (f f1 : String) (x : JsValue)
    (h : f1 ≠ f) : jsGet (objSpreadSet v f x) f1 = jsGet v f1 := by
  have hf : ¬ f = f1 := fun hh => h hh.symm
  cases v <;>
    simp [objSpreadSet, jsGet, getField_setField_ne _ _ _ _ h, getField, setField, hf]

/-!
The canonical order on strings used for field sorting: totality,
transitivity and antisymmetry, and the resulting determinism of sortFields
on field lists with pairwise distinct names.
-/

theorem char_toNat_inj (c1 c2 : Char) (h : c1.toNat = c2.toNat) : c1 = c2 := by
  rw [← Char.ofNat_toNat c1, ← Char.ofNat_toNat c2, h]

theorem string_data_inj (s1 s2 : String) (h : s1.data = s2.data) : s1 = s2 := by
  cases s1
  cases s2
  exact congrArg String.mk h

theorem strLeAux_total (l1 l2 : List Char) :
    strLeAux l1 l2 = true ∨ strLeAux l2 l1 = true := by
  induction l1 generalizing l2 with
  | nil => exact Or.inl rfl
  | cons c1 t1 ih =>
    cases l2 with
    | nil => exact Or.inr rfl
    | cons c2 t2 =>
      by_cases h : c1 = c2
      · subst h
        simpa [strLeAux] using ih t2
      · have h2 : ¬ c2 = c1 := fun hh => h hh.symm
        simp only [strLeAux, if_neg h, if_neg h2]
        have htri : c1.toNat < c2.toNat ∨ c2.toNat < c1.toNat := by
          rcases Nat.lt_trichotomy c1.toNat c2.toNat with hlt | heq | hgt
          · exact Or.inl hlt
          · exact absurd (char_toNat_inj c1 c2 heq) h
          · exact Or.inr hgt
        rcases htri with hh | hh
        · exact Or.inl (by simpa using hh)
        · exact Or.inr (by simpa using hh)

theorem strLeAux_trans (l1 l2 l3 : List Char) (h12 : strLeAux l1 l2 = true)
    (h23 : strLeAux l2 l3 = true) : strLeAux l1 l3 = true := by
  induction l1 generalizing l2 l3 with
  | nil => rfl
  | cons c1 t1 ih =>
    cases l2 with
    | nil => simp [strLeAux] at h12
    | cons c2 t2 =>
      cases l3 with
      | nil => simp [strLeAux] at h23
      | cons c3 t3 =>
        simp only [strLeAux] at h12 h23 ⊢
        by_cases e12 : c1 = c2
        · subst e12
          by_cases e23 : c1 = c3
          · subst e23
            simp only [if_pos rfl] at h12 h23 ⊢
            exact ih t2 t3 (by simpa using h12) (by simpa using h23)
          · simp only [if_neg e23] at h23 ⊢
            exact h23
        · by_cases e23 : c2 = c3
          · subst e23
            simp only [if_neg e12] at h12 ⊢
            exact h12
          · simp only [if_neg e12, if_neg e23, decide_eq_true_eq] at h12 h23
            have hlt : c1.toNat < c3.toNat := Nat.lt_trans h12 h23
            have hne : ¬ c1 = c3 := by
              intro hh
              rw [hh] at hlt
              exact Nat.lt_irrefl _ hlt
            simp [if_neg hne, hlt]

theorem strLeAux_antisymm (l1 l2 : List Char) (h12 : strLeAux l1 l2 = true)
    (h21 : strLeAux l2 l1 = true) : l1 = l2 := by
  induction l1 generalizing l2 with
  | nil =>
    cases l2 with
    | nil => rfl
    | cons c2 t2 => simp [strLeAux] at h21
  | cons c1 t1 ih =>
    cases l2 with
    | nil => simp [strLeAux] at h12
    | cons c2 t2 =>
      simp only [strLeAux] at h12 h21
      by_cases e : c1 = c2
      · subst e
        simp only [if_pos rfl] at h12 h21
        exact congrArg (c1 :: ·) (ih t2 h12 h21)
      · have e2 : ¬ c2 = c1 := fun hh => e hh.symm
        simp only [if_neg e, if_neg e2, decide_eq_true_eq] at h12 h21
        omega

theorem strLe_total (s1 s2 : String) : strLe s1 s2 = true ∨ strLe s2 s1 = true :=
  strLeAux_total s1.data s2.data

theorem strLe_trans (s1 s2 s3 : String) (h12 : strLe s1 s2 = true)
    (h23 : strLe s2 s3 = true) : strLe s1 s3 = true :=
  strLeAux_trans s1.data s2.data s3.data h12 h23

theorem strLe_antisymm (s1 s2 : String) (h12 : strLe s1 s2 = true)
    (h21 : strLe s2 s1 = true) : s1 = s2 :=
  string_data_inj s1 s2 (strLeAux_antisymm s1.data s2.data h12 h21)

theorem pairwise_fst_ne {α : Type} (l : List (String × α))
    (h : (l.map Prod.fst).Nodup) : l.Pairwise (fun p q => p.1 ≠ q.1) := by
  induction l with
  | nil => exact List.Pairwise.nil
  | cons p rest ih =>
    simp only [List.map_cons, List.nodup_cons] at h
    refine List.Pairwise.cons ?_ (ih h.2)
    intro q hq heq
    exact h.1 (List.mem_map.mpr ⟨q, hq, heq.symm⟩)

theorem pairwise_combine {α : Type} {R S : α → α → Prop} (l : List α)
    (hR : l.Pairwise R) (hS : l.Pairwise S) :
    l.Pairwise (fun a b => R a b ∧ S a b) := by
  induction l with
  | nil => exact List.Pairwise.nil
  | cons a rest ih =>
    rcases hR with _ | ⟨hRa, hRrest⟩
    rcases hS with _ | ⟨hSa, hSrest⟩
    exact List.Pairwise.cons (fun b hb => ⟨hRa b hb, hSa b hb⟩) (ih hRrest hSrest)

theorem sortFields_sorted (fs : List (String × Json)) :
    List.Sorted fieldLe (sortFields fs) := by
  haveI : IsTotal (String × Json) fieldLe := ⟨fun a b => strLe_total a.1 b.1⟩
  haveI : IsTrans (String × Json) fieldLe :=
    ⟨fun a b c hab hbc => strLe_trans a.1 b.1 c.1 hab hbc⟩
  exact List.sorted_insertionSort fieldLe fs

theorem sortFields_perm (fs : List (String × Json)) :
    List.Perm (sortFields fs) fs :=
  List.perm_insertionSort fieldLe fs

theorem sortFields_sorted_lt (fs : List (String × Json))
    (h : (fs.map Prod.fst).Nodup) : List.Sorted fieldLt (sortFields fs) := by
  have hnd : ((sortFields fs).map Prod.fst).Nodup :=
    ((sortFields_perm fs).map Prod.fst).symm.nodup h
  have hne := pairwise_fst_ne (sortFields fs) hnd
  have hle := sortFields_sorted fs
  exact pairwise_combine _ hle hne

theorem sortFields_eq_of_perm (fs1 fs2 : List (String × Json))
    (hp : List.Perm fs1 fs2) (h : (fs1.map Prod.fst).Nodup) :
    sortFields fs1 = sortFields fs2 := by
  haveI : IsAntisymm (String × Json) fieldLt :=
    ⟨fun a b hab hba => absurd (strLe_antisymm a.1 b.1 hab.1 hba.1) hab.2⟩
  have h2 : (fs2.map Prod.fst).Nodup := (hp.map Prod.fst).nodup h
  have hperm : List.Perm (sortFields fs1) (sortFields fs2) :=
    ((sortFields_perm fs1).trans hp).trans (sortFields_perm fs2).symm
  exact List.eq_of_perm_of_sorted hperm (sortFields_sorted_lt fs1 h)
    (sortFields_sorted_lt fs2 h2)

theorem convexToJsonFields_eq_map (fs : List (String × ConvexValue)) :
    convexToJsonFields fs = fs.map (fun p => (p.1, convexToJson p.2)) := by
  induction fs with
  | nil => rfl
  | cons p rest ih =>
    obtain ⟨k, v⟩ := p
    simp [convexToJsonFields, ih]

/-!
Decimal numerals: the fuel-based natStr agrees with the Mathlib digit
expansion, consists of digit characters only, and is injective; serialized
numbers followed by non-digit continuations are unambiguous.
-/

theorem digitChar_isDigit : ∀ d : Nat, d < 10 → (digitChar d).isDigit = true := by
  decide

theorem digitChar_inj : ∀ d1 : Nat, d1 < 10 → ∀ d2 : Nat, d2 < 10 →
    digitChar d1 = digitChar d2 → d1 = d2 := by
  decide

theorem natStrAux_eq (fuel : Nat) : ∀ n : Nat, n ≤ fuel →
    natStrAux fuel n = ((Nat.digits 10 n).reverse).map digitChar := by
  induction fuel with
  | zero =>
    intro n hn
    have h0 : n = 0 := Nat.le_zero.mp hn
    subst h0
    simp [natStrAux]
  | succ fuel1 ih =>
    intro n hn
    by_cases h0 : n = 0
    · subst h0
      simp [natStrAux]
    · have hd : Nat.digits 10 n = n % 10 :: Nat.digits 10 (n / 10) :=
        Nat.digits_def' (by norm_num) (Nat.pos_of_ne_zero h0)
      have hdiv : n / 10 ≤ fuel1 := by
        have := Nat.div_lt_self (Nat.pos_of_ne_zero h0) (by norm_num : 1 < 10)
        omega
      simp [natStrAux, h0, ih (n / 10) hdiv, hd]

theorem natStr_pad (n : Nat) :
    natStr n = (if n = 0 then [0] else (Nat.digits 10 n).reverse).map digitChar := by
  by_cases h0 : n = 0
  · subst h0
    simp only [natStr, if_pos rfl]
    decide
  · rw [natStr, if_neg h0, if_neg h0, natStrAux_eq n n le_rfl]

theorem pad_all_lt (n : Nat) :
    ∀ d ∈ (if n = 0 then [0] else (Nat.digits 10 n).reverse), d < 10 := by
  intro d hd
  by_cases h0 : n = 0
  · rw [if_pos h0] at hd
    simp at hd
    omega
  · rw [if_neg h0, List.mem_reverse] at hd
    exact Nat.digits_lt_base (by norm_num) hd

theorem natStr_all_digits (n : Nat) : ∀ c ∈ natStr n, c.isDigit = true := by
  intro c hc
  rw [natStr_pad] at hc
  rcases List.mem_map.mp hc with ⟨d, hd, rfl⟩
  exact digitChar_isDigit d (pad_all_lt n d hd)

theorem natStr_ne_nil (n : Nat) : natStr n ≠ [] := by
  rw [natStr_pad]
  by_cases h0 : n = 0
  · simp [h0]
  · rw [if_neg h0]
    have : Nat.digits 10 n ≠ [] := Nat.digits_ne_nil_iff_ne_zero.mpr h0
    simp [this]

theorem mapDigitChar_inj : ∀ (l1 l2 : List Nat), (∀ d ∈ l1, d < 10) →
    (∀ d ∈ l2, d < 10) → l1.map digitChar = l2.map digitChar → l1 = l2 := by
  intro l1
  induction l1 with
  | nil =>
    intro l2 _ _ h
    cases l2 with
    | nil => rfl
    | cons d2 t2 => simp at h
  | cons d1 t1 ih =>
    intro l2 hb1 hb2 h
    cases l2 with
    | nil => simp at h
    | cons d2 t2 =>
      simp only [List.map_cons, List.cons.injEq] at h
      have hd := digitChar_inj d1 (hb1 d1 (List.mem_cons_self d1 t1)) d2
        (hb2 d2 (List.mem_cons_self d2 t2)) h.1
      have ht := ih t2 (fun d hd => hb1 d (List.mem_cons_of_mem _ hd))
        (fun d hd => hb2 d (List.mem_cons_of_mem _ hd)) h.2
      rw [hd, ht]

theorem natStr_inj (n1 n2 : Nat) (h : natStr n1 = natStr n2) : n1 = n2 := by
  rw [natStr_pad, natStr_pad] at h
  have hp := mapDigitChar_inj _ _ (pad_all_lt n1) (pad_all_lt n2) h
  by_cases h1 : n1 = 0 <;> by_cases h2 : n2 = 0
  · rw [h1, h2]
  · exfalso
    rw [if_pos h1, if_neg h2] at hp
    have hd : Nat.digits 10 n2 = [0] := by
      have := congrArg List.reverse hp
      simpa using this.symm
    have : n2 = 0 := by
      have ho := Nat.ofDigits_digits 10 n2
      rw [hd] at ho
      simpa [Nat.ofDigits] using ho.symm
    exact h2 this
  · exfalso
    rw [if_neg h1, if_pos h2] at hp
    have hd : Nat.digits 10 n1 = [0] := by
      have := congrArg List.reverse hp
      simpa using this
    have : n1 = 0 := by
      have ho := Nat.ofDigits_digits 10 n1
      rw [hd] at ho
      simpa [Nat.ofDigits] using ho.symm
    exact h1 this
  · rw [if_neg h1, if_neg h2] at hp
    have hd : Nat.digits 10 n1 = Nat.digits 10 n2 := by
      have := congrArg List.reverse hp
      simpa using this
    have ho1 := Nat.ofDigits_digits 10 n1
    have ho2 := Nat.ofDigits_digits 10 n2
    rw [← ho1, ← ho2, hd]

theorem digitRun_unamb : ∀ (d1 d2 r1 r2 : List Char),
    (∀ c ∈ d1, c.isDigit = true) → (∀ c ∈ d2, c.isDigit = true) →
    TailOk r1 → TailOk r2 → d1 ++ r1 = d2 ++ r2 → d1 = d2 ∧ r1 = r2 := by
  intro d1
  induction d1 with
  | nil =>
    intro d2 r1 r2 _ hd2 t1 _ h
    cases d2 with
    | nil => exact ⟨rfl, h⟩
    | cons c2 t2d =>
      exfalso
      simp only [List.nil_append, List.cons_append] at h
      rw [h] at t1
      simp only [TailOk] at t1
      rw [hd2 c2 (List.mem_cons_self c2 t2d)] at t1
      exact absurd t1 (by decide)
  | cons c1 t1d ih =>
    intro d2 r1 r2 hd1 hd2 t1 t2 h
    cases d2 with
    | nil =>
      exfalso
      simp only [List.nil_append, List.cons_append] at h
      rw [← h] at t2
      simp only [TailOk] at t2
      rw [hd1 c1 (List.mem_cons_self c1 t1d)] at t2
      exact absurd t2 (by decide)
    | cons c2 t2d =>
      simp only [List.cons_append, List.cons.injEq] at h
      have hrec := ih t2d r1 r2 (fun c hc => hd1 c (List.mem_cons_of_mem _ hc))
        (fun c hc => hd2 c (List.mem_cons_of_mem _ hc)) t1 t2 h.2
      exact ⟨by rw [h.1, hrec.1], hrec.2⟩

theorem intStr_head (n : Int) :
    ∃ c cs, intStr n = c :: cs ∧ (c = '-' ∨ c.isDigit = true) := by
  by_cases h : n < 0
  · exact ⟨'-', natStr n.natAbs, by simp [intStr, h], Or.inl rfl⟩
  · cases hc : natStr n.toNat with
    | nil => exact absurd hc (natStr_ne_nil _)
    | cons c cs =>
      refine ⟨c, cs, by simp [intStr, h, hc], Or.inr ?_⟩
      exact natStr_all_digits n.toNat c (by rw [hc]; exact List.mem_cons_self c cs)

theorem intStr_unamb (n1 n2 : Int) (r1 r2 : List Char) (t1 : TailOk r1)
    (t2 : TailOk r2) (h : intStr n1 ++ r1 = intStr n2 ++ r2) :
    n1 = n2 ∧ r1 = r2 := by
  by_cases h1 : n1 < 0 <;> by_cases h2 : n2 < 0
  · simp only [intStr, if_pos h1, if_pos h2, List.cons_append, List.cons.injEq] at h
    have hrec := digitRun_unamb (natStr n1.natAbs) (natStr n2.natAbs) r1 r2
      (natStr_all_digits _) (natStr_all_digits _) t1 t2 h.2
    have habs := natStr_inj _ _ hrec.1
    exact ⟨by omega, hrec.2⟩
  · exfalso
    simp only [intStr, if_pos h1, if_neg h2, List.cons_append] at h
    obtain ⟨c, cs, hc, hop⟩ := intStr_head n2
    simp only [intStr, if_neg h2] at hc
    rw [hc, List.cons_append, List.cons.injEq] at h
    rcases hop with hm | hd
    · rw [hm] at hc
      have hdig := natStr_all_digits n2.toNat '-' (by rw [hc]; exact List.mem_cons_self _ _)
      exact absurd hdig (by decide)
    · rw [← h.1] at hd
      exact absurd hd (by decide)
  · exfalso
    simp only [intStr, if_pos h2, if_neg h1, List.cons_append] at h
    obtain ⟨c, cs, hc, hop⟩ := intStr_head n1
    simp only [intStr, if_neg h1] at hc
    rw [hc, List.cons_append, List.cons.injEq] at h
    rcases hop with hm | hd
    · rw [hm] at hc
      have hdig := natStr_all_digits n1.toNat '-' (by rw [hc]; exact List.mem_cons_self _ _)
      exact absurd hdig (by decide)
    · rw [h.1] at hd
      exact absurd hd (by decide)
  · simp only [intStr, if_neg h1, if_neg h2] at h
    have hrec := digitRun_unamb (natStr n1.toNat) (natStr n2.toNat) r1 r2
      (natStr_all_digits _) (natStr_all_digits _) t1 t2 h
    have habs := natStr_inj _ _ hrec.1
    exact ⟨by omega, hrec.2⟩

/-!
String literal escaping is unambiguous, and the first character of a
serialization determines the syntactic class of the document.
-/

theorem TailOk_cons (c : Char) (r : List Char) (h : c.isDigit = false) :
    TailOk (c :: r) := h

theorem escChar_spec (c : Char) :
    ((c = '"' ∨ c = '\\') ∧ escChar c = ['\\', c]) ∨
      (¬ (c = '"' ∨ c = '\\')) ∧ escChar c = [c] := by
  by_cases h1 : c = '"'
  · exact Or.inl ⟨Or.inl h1, by rw [h1]; rfl⟩
  · by_cases h2 : c = '\\'
    · exact Or.inl ⟨Or.inr h2, by rw [h2]; rfl⟩
    · exact Or.inr ⟨by tauto, by simp [escChar, h1, h2]⟩

theorem escChars_unamb : ∀ (s1 s2 r1 r2 : List Char),
    escChars s1 ++ ('"' :: r1) = escChars s2 ++ ('"' :: r2) →
    s1 = s2 ∧ r1 = r2 := by
  intro s1
  induction s1 with
  | nil =>
    intro s2 r1 r2 h
    cases s2 with
    | nil => exact ⟨rfl, by simpa using h⟩
    | cons c2 t2 =>
      exfalso
      rcases escChar_spec c2 with ⟨hc, he⟩ | ⟨hc, he⟩
      · simp only [escChars, he, List.nil_append, List.cons_append, List.append_assoc,
          List.cons.injEq] at h
        exact absurd h.1 (by decide)
      · simp only [escChars, he, List.nil_append, List.cons_append, List.cons.injEq] at h
        exact hc (Or.inl h.1.symm)
  | cons c1 t1 ih =>
    intro s2 r1 r2 h
    cases s2 with
    | nil =>
      exfalso
      rcases escChar_spec c1 with ⟨hc, he⟩ | ⟨hc, he⟩
      · simp only [escChars, he, List.nil_append, List.cons_append, List.append_assoc,
          List.cons.injEq] at h
        exact absurd h.1 (by decide)
      · simp only [escChars, he, List.nil_append, List.cons_append, List.cons.injEq] at h
        exact hc (Or.inl h.1)
    | cons c2 t2 =>
      rcases escChar_spec c1 with ⟨hc1, he1⟩ | ⟨hc1, he1⟩ <;>
        rcases escChar_spec c2 with ⟨hc2, he2⟩ | ⟨hc2, he2⟩
      · simp only [escChars, he1, he2, List.cons_append, List.append_assoc,
          List.cons.injEq] at h
        obtain ⟨-, hcc, hrest⟩ := h
        have hr := ih t2 r1 r2 hrest
        exact ⟨by rw [hcc, hr.1], hr.2⟩
      · exfalso
        simp only [escChars, he1, he2, List.cons_append, List.append_assoc,
          List.cons.injEq] at h
        exact hc2 (Or.inr h.1.symm)
      · exfalso
        simp only [escChars, he1, he2, List.cons_append, List.append_assoc,
          List.cons.injEq] at h
        exact hc1 (Or.inr h.1)
      · simp only [escChars, he1, he2, List.cons_append, List.cons.injEq] at h
        have hr := ih t2 r1 r2 h.2
        exact ⟨by rw [h.1, hr.1], hr.2⟩

theorem headTag_digit (c : Char) (h : c.isDigit = true) : headTag c = 2 := by
  have hn : ¬ c = 'n' := by
    rintro rfl
    exact absurd h (by decide)
  have ht : ¬ c = 't' := by
    rintro rfl
    exact absurd h (by decide)
  have hf : ¬ c = 'f' := by
    rintro rfl
    exact absurd h (by decide)
  simp [headTag, hn, ht, hf, h]

theorem renderJson_head (v : Json) :
    ∃ c cs, renderJson v = c :: cs ∧ headTag c = jsonTag v := by
  cases v with
  | null => exact ⟨'n', ['u', 'l', 'l'], rfl, by decide⟩
  | bool b =>
    cases b with
    | true => exact ⟨'t', ['r', 'u', 'e'], rfl, by decide⟩
    | false => exact ⟨'f', ['a', 'l', 's', 'e'], rfl, by decide⟩
  | num n =>
    obtain ⟨c, cs, hc, hop⟩ := intStr_head n
    refine ⟨c, cs, by simp [renderJson, hc], ?_⟩
    rcases hop with rfl | hd
    · rfl
    · simp [headTag_digit c hd, jsonTag]
  | str s => exact ⟨'"', escChars s.data ++ ['"'], by simp [renderJson], rfl⟩
  | arr xs => exact ⟨'[', renderArr xs ++ [']'], by simp [renderJson], rfl⟩
  | obj fs => exact ⟨'{', renderObj fs ++ ['}'], by simp [renderJson], rfl⟩

theorem jsonTag_le (v : Json) : jsonTag v ≤ 5 := by
  cases v <;> simp [jsonTag]

theorem renderJson_head_ne (v : Json) (c : Char) (cs : List Char)
    (h : renderJson v = c :: cs) : c ≠ ']' ∧ c ≠ '}' ∧ c ≠ ',' ∧ c ≠ ':' := by
  obtain ⟨c2, cs2, hc2, htag⟩ := renderJson_head v
  rw [h] at hc2
  injection hc2 with h1 _
  rw [← h1] at htag
  have hle := jsonTag_le v
  refine ⟨?_, ?_, ?_, ?_⟩ <;> rintro rfl <;>
    rw [show headTag _ = 6 from by decide] at htag <;> omega

theorem renderArr_cons_shape (y : Json) (ys : List Json) :
    ∃ t, renderArr (y :: ys) = renderJson y ++ t := by
  cases ys with
  | nil => exact ⟨[], by simp [renderArr]⟩
  | cons z zs => exact ⟨',' :: renderArr (z :: zs), by simp [renderArr]⟩

theorem renderObj_cons_head (k : String) (v : Json) (fs : List (String × Json)) :
    ∃ t, renderObj ((k, v) :: fs) = '"' :: t := by
  cases fs with
  | nil => exact ⟨escChars k.data ++ ('"' :: (':' :: renderJson v)), by simp [renderObj]⟩
  | cons f fs2 =>
    exact ⟨escChars k.data ++ ('"' :: (':' :: renderJson v)) ++
      (',' :: renderObj (f :: fs2)), by simp [renderObj]⟩

/-!
Serializer unambiguity: a serialized document followed by an admissible
continuation determines both the document and the continuation.  The list
level lemmas take the element-level property as a hypothesis and are combined
by strong induction on the size of the document.
-/

theorem renderArr_unamb : ∀ (xs1 xs2 : List Json) (r1 r2 : List Char),
    (∀ v ∈ xs1, ∀ (w : Json) (s1 s2 : List Char), TailOk s1 → TailOk s2 →
      renderJson v ++ s1 = renderJson w ++ s2 → v = w ∧ s1 = s2) →
    renderArr xs1 ++ (']' :: r1) = renderArr xs2 ++ (']' :: r2) →
    xs1 = xs2 ∧ r1 = r2 := by
  intro xs1
  induction xs1 with
  | nil =>
    intro xs2 r1 r2 _ h
    cases xs2 with
    | nil =>
      simp only [renderArr, List.nil_append] at h
      exact ⟨rfl, by simpa using h⟩
    | cons y ys =>
      exfalso
      obtain ⟨t, ht⟩ := renderArr_cons_shape y ys
      obtain ⟨c, cs, hc, -⟩ := renderJson_head y
      rw [ht, hc] at h
      simp only [renderArr, List.nil_append, List.cons_append, List.append_assoc,
        List.cons.injEq] at h
      exact (renderJson_head_ne y c cs hc).1 h.1.symm
  | cons x xs ih =>
    intro xs2 r1 r2 helts h
    cases xs2 with
    | nil =>
      exfalso
      obtain ⟨t, ht⟩ := renderArr_cons_shape x xs
      obtain ⟨c, cs, hc, -⟩ := renderJson_head x
      rw [ht, hc] at h
      simp only [renderArr, List.nil_append, List.cons_append, List.append_assoc,
        List.cons.injEq] at h
      exact (renderJson_head_ne x c cs hc).1 h.1
    | cons y ys =>
      cases xs with
      | nil =>
        cases ys with
        | nil =>
          simp only [renderArr] at h
          obtain ⟨hxy, hr⟩ := helts x (List.mem_cons_self x []) y (']' :: r1)
            (']' :: r2) (TailOk_cons _ _ (by decide)) (TailOk_cons _ _ (by decide)) h
          injection hr with _ hr2
          exact ⟨by rw [hxy], hr2⟩
        | cons z zs =>
          exfalso
          simp only [renderArr, List.cons_append, List.append_assoc] at h
          obtain ⟨-, hr⟩ := helts x (List.mem_cons_self x []) y (']' :: r1)
            (',' :: (renderArr (z :: zs) ++ (']' :: r2)))
            (TailOk_cons _ _ (by decide)) (TailOk_cons _ _ (by decide)) h
          injection hr with h1 _
          exact absurd h1 (by decide)
      | cons w ws =>
        cases ys with
        | nil =>
          exfalso
          simp only [renderArr, List.cons_append, List.append_assoc] at h
          obtain ⟨-, hr⟩ := helts x (List.mem_cons_self x (w :: ws)) y
            (',' :: (renderArr (w :: ws) ++ (']' :: r1))) (']' :: r2)
            (TailOk_cons _ _ (by decide)) (TailOk_cons _ _ (by decide)) h
          injection hr with h1 _
          exact absurd h1 (by decide)
        | cons z zs =>
          simp only [renderArr, List.cons_append, List.append_assoc] at h
          obtain ⟨hxy, hr⟩ := helts x (List.mem_cons_self x (w :: ws)) y
            (',' :: (renderArr (w :: ws) ++ (']' :: r1)))
            (',' :: (renderArr (z :: zs) ++ (']' :: r2)))
            (TailOk_cons _ _ (by decide)) (TailOk_cons _ _ (by decide)) h
          injection hr with _ hr2
          obtain ⟨hws, hrr⟩ := ih (z :: zs) r1 r2
            (fun v hv => helts v (List.mem_cons_of_mem _ hv)) hr2
          exact ⟨by rw [hxy, hws], hrr⟩

theorem renderObj_singleton (k : String) (v : Json) :
    renderObj [(k, v)] = renderEntry k v := rfl

theorem renderObj_cons2 (k : String) (v : Json) (f : String × Json)
    (fs : List (String × Json)) :
    renderObj ((k, v) :: f :: fs) = renderEntry k v ++ (',' :: renderObj (f :: fs)) := rfl

theorem renderEntry_unamb (k1 k2 : String) (v1 v2 : Json) (X1 X2 : List Char)
    (ihv : ∀ (w : Json) (s1 s2 : List Char), TailOk s1 → TailOk s2 →
      renderJson v1 ++ s1 = renderJson w ++ s2 → v1 = w ∧ s1 = s2)
    (t1 : TailOk X1) (t2 : TailOk X2)
    (h : renderEntry k1 v1 ++ X1 = renderEntry k2 v2 ++ X2) :
    k1 = k2 ∧ v1 = v2 ∧ X1 = X2 := by
  simp only [renderEntry, List.cons_append, List.append_assoc, List.cons.injEq,
    true_and] at h
  have he := escChars_unamb k1.data k2.data (':' :: (renderJson v1 ++ X1))
    (':' :: (renderJson v2 ++ X2)) h
  obtain ⟨hk, hrest⟩ := he
  injection hrest with _ hrest2
  obtain ⟨hv, hX⟩ := ihv v2 X1 X2 t1 t2 hrest2
  exact ⟨string_data_inj k1 k2 hk, hv, hX⟩

theorem renderObj_unamb : ∀ (fs1 fs2 : List (String × Json)) (r1 r2 : List Char),
    (∀ p ∈ fs1, ∀ (w : Json) (s1 s2 : List Char), TailOk s1 → TailOk s2 →
      renderJson p.2 ++ s1 = renderJson w ++ s2 → p.2 = w ∧ s1 = s2) →
    renderObj fs1 ++ ('}' :: r1) = renderObj fs2 ++ ('}' :: r2) →
    fs1 = fs2 ∧ r1 = r2 := by
  intro fs1
  induction fs1 with
  | nil =>
    intro fs2 r1 r2 _ h
    cases fs2 with
    | nil =>
      simp only [renderObj, List.nil_append] at h
      exact ⟨rfl, by simpa using h⟩
    | cons p2 t2f =>
      exfalso
      obtain ⟨k2, v2⟩ := p2
      obtain ⟨t, ht⟩ := renderObj_cons_head k2 v2 t2f
      rw [ht] at h
      simp only [renderObj, List.nil_append, List.cons_append, List.cons.injEq] at h
      exact absurd h.1 (by decide)
  | cons p1 t1f ih =>
    intro fs2 r1 r2 helts h
    obtain ⟨k1, v1⟩ := p1
    cases fs2 with
    | nil =>
      exfalso
      obtain ⟨t, ht⟩ := renderObj_cons_head k1 v1 t1f
      rw [ht] at h
      simp only [renderObj, List.nil_append, List.cons_append, List.cons.injEq] at h
      exact absurd h.1 (by decide)
    | cons p2 t2f =>
      obtain ⟨k2, v2⟩ := p2
      have ihv : ∀ (w : Json) (s1 s2 : List Char), TailOk s1 → TailOk s2 →
          renderJson v1 ++ s1 = renderJson w ++ s2 → v1 = w ∧ s1 = s2 :=
        helts (k1, v1) (List.mem_cons_self _ _)
      cases t1f with
      | nil =>
        cases t2f with
        | nil =>
          rw [renderObj_singleton, renderObj_singleton] at h
          obtain ⟨hk, hv, hX⟩ := renderEntry_unamb k1 k2 v1 v2 ('}' :: r1)
            ('}' :: r2) ihv (TailOk_cons _ _ (by decide))
            (TailOk_cons _ _ (by decide)) h
          injection hX with _ hr
          exact ⟨by rw [hk, hv], hr⟩
        | cons q2 t2g =>
          exfalso
          rw [renderObj_singleton, renderObj_cons2, List.append_assoc] at h
          obtain ⟨-, -, hX⟩ := renderEntry_unamb k1 k2 v1 v2 ('}' :: r1)
            (',' :: (renderObj (q2 :: t2g) ++ ('}' :: r2))) ihv
            (TailOk_cons _ _ (by decide)) (TailOk_cons _ _ (by decide))
            (by simpa using h)
          injection hX with h1 _
          exact absurd h1 (by decide)
      | cons q1 t1g =>
        cases t2f with
        | nil =>
          exfalso
          rw [renderObj_cons2, renderObj_singleton, List.append_assoc] at h
          obtain ⟨-, -, hX⟩ := renderEntry_unamb k1 k2 v1 v2
            (',' :: (renderObj (q1 :: t1g) ++ ('}' :: r1))) ('}' :: r2) ihv
            (TailOk_cons _ _ (by decide)) (TailOk_cons _ _ (by decide))
            (by simpa using h)
          injection hX with h1 _
          exact absurd h1 (by decide)
        | cons q2 t2g =>
          rw [renderObj_cons2, renderObj_cons2, List.append_assoc,
            List.append_assoc] at h
          obtain ⟨hk, hv, hX⟩ := renderEntry_unamb k1 k2 v1 v2
            (',' :: (renderObj (q1 :: t1g) ++ ('}' :: r1)))
            (',' :: (renderObj (q2 :: t2g) ++ ('}' :: r2))) ihv
            (TailOk_cons _ _ (by decide)) (TailOk_cons _ _ (by decide))
            (by simpa using h)
          injection hX with _ hr2
          obtain ⟨ht, hrr⟩ := ih (q2 :: t2g) r1 r2
            (fun p hp => helts p (List.mem_cons_of_mem _ hp)) hr2
          exact ⟨by rw [hk, hv, ht], hrr⟩

theorem renderJson_unamb_aux : ∀ (N : Nat) (v1 v2 : Json) (r1 r2 : List Char),
    sizeOf v1 < N → TailOk r1 → TailOk r2 →
    renderJson v1 ++ r1 = renderJson v2 ++ r2 → v1 = v2 ∧ r1 = r2 := by
  intro N
  induction N with
  | zero =>
    intro v1 _ _ _ hsz
    omega
  | succ N ih =>
    intro v1 v2 r1 r2 hsz t1 t2 h
    obtain ⟨c1, cs1, hc1, htag1⟩ := renderJson_head v1
    obtain ⟨c2, cs2, hc2, htag2⟩ := renderJson_head v2
    have htag : jsonTag v1 = jsonTag v2 := by
      have hcc : c1 = c2 := by
        rw [hc1, hc2] at h
        simp only [List.cons_append, List.cons.injEq] at h
        exact h.1
      rw [← htag1, ← htag2, hcc]
    clear htag1 htag2 hc1 hc2
    cases v1 <;> cases v2 <;> simp only [jsonTag] at htag <;> try omega
    case null.null =>
      refine ⟨rfl, ?_⟩
      simpa [renderJson] using h
    case bool.bool b1 b2 =>
      cases b1 <;> cases b2
      · refine ⟨rfl, ?_⟩
        simpa [renderJson] using h
      · exfalso
        simp only [renderJson, List.cons_append, List.cons.injEq] at h
        exact absurd h.1 (by decide)
      · exfalso
        simp only [renderJson, List.cons_append, List.cons.injEq] at h
        exact absurd h.1 (by decide)
      · refine ⟨rfl, ?_⟩
        simpa [renderJson] using h
    case num.num n1 n2 =>
      simp only [renderJson] at h
      obtain ⟨hn, hr⟩ := intStr_unamb n1 n2 r1 r2 t1 t2 h
      exact ⟨by rw [hn], hr⟩
    case str.str s1 s2 =>
      simp only [renderJson, List.cons_append, List.append_assoc,
        List.singleton_append, List.cons.injEq, true_and] at h
      obtain ⟨hk, hr⟩ := escChars_unamb s1.data s2.data r1 r2 h
      exact ⟨by rw [string_data_inj s1 s2 hk], hr⟩
    case arr.arr xs1 xs2 =>
      simp only [renderJson, List.cons_append, List.append_assoc,
        List.singleton_append, List.cons.injEq, true_and] at h
      have helts : ∀ v ∈ xs1, ∀ (w : Json) (s1 s2 : List Char), TailOk s1 →
          TailOk s2 → renderJson v ++ s1 = renderJson w ++ s2 → v = w ∧ s1 = s2 := by
        intro v hv w s1 s2 ht1 ht2 hh
        have hm := List.sizeOf_lt_of_mem hv
        have harr : sizeOf (Json.arr xs1) = 1 + sizeOf xs1 := by simp
        exact ih v w s1 s2 (by omega) ht1 ht2 hh
      obtain ⟨hx, hr⟩ := renderArr_unamb xs1 xs2 r1 r2 helts h
      exact ⟨by rw [hx], hr⟩
    case obj.obj fs1 fs2 =>
      simp only [renderJson, List.cons_append, List.append_assoc,
        List.singleton_append, List.cons.injEq, true_and] at h
      have helts : ∀ p ∈ fs1, ∀ (w : Json) (s1 s2 : List Char), TailOk s1 →
          TailOk s2 → renderJson p.2 ++ s1 = renderJson w ++ s2 →
          p.2 = w ∧ s1 = s2 := by
        intro p hp w s1 s2 ht1 ht2 hh
        have hm := List.sizeOf_lt_of_mem hp
        obtain ⟨a, b⟩ := p
        have hpair : sizeOf ((a, b) : String × Json) = 1 + sizeOf a + sizeOf b := by simp
        have hobj : sizeOf (Json.obj fs1) = 1 + sizeOf fs1 := by simp
        have hb : 0 < sizeOf a := by
          cases a
          simp_arith
        exact ih b w s1 s2 (by omega) ht1 ht2 hh
      obtain ⟨hf, hr⟩ := renderObj_unamb fs1 fs2 r1 r2 helts h
      exact ⟨by rw [hf], hr⟩

theorem renderJson_unamb (v1 v2 : Json) (r1 r2 : List Char) (t1 : TailOk r1)
    (t2 : TailOk r2) (h : renderJson v1 ++ r1 = renderJson v2 ++ r2) :
    v1 = v2 ∧ r1 = r2 :=
  renderJson_unamb_aux (sizeOf v1 + 1) v1 v2 r1 r2 (Nat.lt_succ_self _) t1 t2 h

theorem renderJson_inj (v1 v2 : Json) (h : renderJson v1 = renderJson v2) :
    v1 = v2 := by
  have hh : renderJson v1 ++ [] = renderJson v2 ++ [] := by simpa using h
  exact (renderJson_unamb v1 v2 [] [] trivial trivial hh).1

theorem jsonStringify_inj (v1 v2 : Json) (h : jsonStringify v1 = jsonStringify v2) :
    v1 = v2 := by
  apply renderJson_inj
  have := congrArg String.data h
  simpa [jsonStringify] using this

/-!
Claim theorems.
-/

theorem queriesIsLoading_iff (result : List (String × JsValue)) :
    queriesIsLoading result = true ↔
      ∃ name v, (name, v) ∈ result ∧ v = JsValue.undef := by
  constructor
  · intro hl
    obtain ⟨v, hv, hu⟩ := List.any_eq_true.mp hl
    obtain ⟨p, hp, hpv⟩ := List.mem_map.mp hv
    refine ⟨p.1, p.2, by simpa using hp, ?_⟩
    rw [hpv]
    exact isUndef_eq_true v hu
  · rintro ⟨name, v, hmem, rfl⟩
    apply List.any_eq_true.mpr
    exact ⟨JsValue.undef, List.mem_map.mpr ⟨(name, JsValue.undef), hmem, rfl⟩, rfl⟩

/-- Claim C1: staleness substitution was claimed to hold for every cached
value R including null.  The code evaluated at the failing input shows
otherwise: with null cached under the key and a live sentinel result, the
single-query wrapper returns the sentinel, not the cached null, because the
nullish-coalescing operator in the source treats the cached null as absent.
This contradicts the wrapper's own documentation (it promises to keep
returning the previously loaded data) and the spec's return rule. -/
theorem C1_cached_null_returns_sentinel :
    cacheGet [("k", JsValue.null)] "k" = JsValue.null ∧
    (useQuerySwr_eval "k" JsValue.undef [("k", JsValue.null)]).1 = JsValue.undef ∧
    (useQuerySwr_eval "k" JsValue.undef [("k", JsValue.null)]).1 ≠ JsValue.null :=
  ⟨rfl, rfl, fun h => JsValue.noConfusion h⟩

/-- Claim C2: cache write-on-success.  Whenever the live result of a
single-query evaluation is not the loading sentinel, the deferred effect
writes it under the derived key, and a subsequent cache read for that key
yields exactly that result. -/
theorem C2_cache_write_on_success (key : String) (result : JsValue) (cache : Cache)
    (h : result ≠ JsValue.undef) :
    (useQuerySwr_eval key result cache).2 = cacheSet cache key result ∧
    cacheGet (useQuerySwr_eval key result cache).2 key = result := by
  have hf : isUndef result = false := isUndef_eq_false result h
  constructor
  · simp [useQuerySwr_eval, hf]
  · simp only [useQuerySwr_eval, hf, Bool.false_eq_true, if_false]
    exact getField_setField_self cache key result

theorem C2_witness :
    JsValue.str "x" ≠ JsValue.undef ∧
    cacheGet (useQuerySwr_eval "k" (JsValue.str "x") []).2 "k" = JsValue.str "x" :=
  ⟨fun h => JsValue.noConfusion h,
    (C2_cache_write_on_success "k" (JsValue.str "x") []
      (fun h => JsValue.noConfusion h)).2⟩

/-- Claim C3: freshness precedence.  Whenever the live result is not the
loading sentinel, the single-query wrapper returns it directly, never a
cached value, regardless of the cache contents. -/
theorem C3_freshness_precedence (key : String) (result : JsValue) (cache : Cache)
    (h : result ≠ JsValue.undef) :
    (useQuerySwr_eval key result cache).1 = result := by
  simp [useQuerySwr_eval, isUndef_eq_false result h]

theorem C3_witness :
    JsValue.str "new" ≠ JsValue.undef ∧
    (useQuerySwr_eval "k" (JsValue.str "new") [("k", JsValue.str "old")]).1 =
      JsValue.str "new" :=
  ⟨fun h => JsValue.noConfusion h,
    C3_freshness_precedence "k" (JsValue.str "new") [("k", JsValue.str "old")]
      (fun h => JsValue.noConfusion h)⟩

/-- Claim C4: multi-query batch loading.  isLoading holds exactly when some
named sub-result of the live batch is the sentinel; while loading the wrapper
returns the cached batch for the composite key when present (the live,
partially loaded batch when the key is absent) and leaves the cache
untouched; when not loading it returns the live batch and writes the entire
named-result mapping under the composite key. -/
theorem C4_multi_query_batch (key : String) (result : List (String × JsValue))
    (cache : Cache) :
    (queriesIsLoading result = true ↔
      ∃ name v, (name, v) ∈ result ∧ v = JsValue.undef)
    ∧ (queriesIsLoading result = true →
        (∀ m, cacheGet cache key = JsValue.obj m →
          (useQueriesSwr_eval key result cache).1 = JsValue.obj m)
        ∧ (cacheGet cache key = JsValue.undef →
          (useQueriesSwr_eval key result cache).1 = JsValue.obj result)
        ∧ (useQueriesSwr_eval key result cache).2 = cache)
    ∧ (queriesIsLoading result = false →
        (useQueriesSwr_eval key result cache).1 = JsValue.obj result
        ∧ cacheGet (useQueriesSwr_eval key result cache).2 key = JsValue.obj result) := by
  refine ⟨queriesIsLoading_iff result, ?_, ?_⟩
  · intro hl
    refine ⟨?_, ?_, ?_⟩
    · intro m hm
      simp [useQueriesSwr_eval, hl, hm, nullish, isNullish]
    · intro hm
      simp [useQueriesSwr_eval, hl, hm, nullish, isNullish]
    · simp [useQueriesSwr_eval, hl]
  · intro hl
    constructor
    · simp [useQueriesSwr_eval, hl]
    · simp only [useQueriesSwr_eval, hl, Bool.false_eq_true, if_false]
      exact getField_setField_self cache key (JsValue.obj result)

theorem C4_witness :
    (useQueriesSwr_eval "k" [("a", JsValue.undef)]
      [("k", JsValue.obj [("a", JsValue.null)])]).1 = JsValue.obj [("a", JsValue.null)]
    ∧ (useQueriesSwr_eval "k2" [("a", JsValue.str "x")] []).1 =
      JsValue.obj [("a", JsValue.str "x")] :=
  ⟨((C4_multi_query_batch "k" [("a", JsValue.undef)]
      [("k", JsValue.obj [("a", JsValue.null)])]).2.1 rfl).1 _ rfl,
    ((C4_multi_query_batch "k2" [("a", JsValue.str "x")] []).2.2 rfl).1⟩

/-- Claim C5: pagination invalidation.  The wrapping loadMore first deletes
the cache entry for the current key and only afterwards delegates to the
underlying loadMore (the event list records the order); after it runs, the
entry is gone, and a subsequent LoadingFirstPage evaluation for the same key
against the resulting cache (no intervening write) returns the live
sentinel-state result, with only loadMore replaced, rather than the
pre-loadMore cached page set. -/
theorem C5_pagination_invalidation (key : String) (numItems : Nat) (cache : Cache)
    (result lm : JsValue)
    (hstatus : jsGet result "status" = JsValue.str "LoadingFirstPage") :
    (loadMoreSwr key numItems cache).2 =
      [LoadMoreEvent.cacheDeleted key, LoadMoreEvent.delegated numItems]
    ∧ cacheGet (loadMoreSwr key numItems cache).1 key = JsValue.undef
    ∧ (usePaginatedQuerySwr_eval key result lm (loadMoreSwr key numItems cache).1).1 =
        objSpreadSet result "loadMore" lm := by
  have hs : jsEqStr (jsGet result "status") "LoadingFirstPage" = true := by
    rw [hstatus]
    simp [jsEqStr]
  have hstale : cacheGet (loadMoreSwr key numItems cache).1 key = JsValue.undef :=
    getField_delField_self cache key
  refine ⟨rfl, hstale, ?_⟩
  simp [usePaginatedQuerySwr_eval, hs, hstale, nullish, isNullish]

theorem C5_witness :
    jsGet (JsValue.obj [("status", JsValue.str "LoadingFirstPage")]) "status" =
      JsValue.str "LoadingFirstPage"
    ∧ (usePaginatedQuerySwr_eval "k"
        (JsValue.obj [("status", JsValue.str "LoadingFirstPage")]) (JsValue.fn 0)
        (loadMoreSwr "k" 5
          [("k", JsValue.obj [("status", JsValue.str "Exhausted")])]).1).1 =
      objSpreadSet (JsValue.obj [("status", JsValue.str "LoadingFirstPage")])
        "loadMore" (JsValue.fn 0) :=
  ⟨rfl, (C5_pagination_invalidation "k" 5
    [("k", JsValue.obj [("status", JsValue.str "Exhausted")])]
    (JsValue.obj [("status", JsValue.str "LoadingFirstPage")]) (JsValue.fn 0) rfl).2.2⟩

/-- Claim C6: key determinism and argument-order independence, and key
injectivity.  For one query identity, argument objects with the same
name-to-value bindings (any insertion order, names pairwise distinct)
produce the same key; and two (identity, arguments) pairs with different
canonical names or different canonical argument encodings produce different
keys. -/
theorem C6_key_deriver_determinism_injectivity :
    (∀ (q : QueryRef) (fs1 fs2 : List (String × ConvexValue)),
      List.Perm fs1 fs2 → (fs1.map Prod.fst).Nodup →
      createQueryKey q (ConvexValue.object fs1) =
        createQueryKey q (ConvexValue.object fs2))
    ∧ (∀ (q1 q2 : QueryRef) (a1 a2 : ConvexValue),
      getFunctionName q1 ≠ getFunctionName q2 ∨ convexToJson a1 ≠ convexToJson a2 →
      createQueryKey q1 a1 ≠ createQueryKey q2 a2) := by
  constructor
  · intro q fs1 fs2 hp hnd
    have hfields : sortFields (convexToJsonFields fs1) =
        sortFields (convexToJsonFields fs2) := by
      apply sortFields_eq_of_perm
      · rw [convexToJsonFields_eq_map, convexToJsonFields_eq_map]
        exact hp.map _
      · rw [convexToJsonFields_eq_map]
        have hmm : (fs1.map (fun p => (p.1, convexToJson p.2))).map Prod.fst =
            fs1.map Prod.fst := by
          rw [List.map_map]
          rfl
        rw [hmm]
        exact hnd
    have htree : convexToJson (ConvexValue.object fs1) =
        convexToJson (ConvexValue.object fs2) := by
      simp only [convexToJson]
      rw [hfields]
    simp only [createQueryKey]
    rw [htree]
  · intro q1 q2 a1 a2 hne heq
    have heq2 : jsonStringify (Json.arr [Json.str (getFunctionName q1), convexToJson a1]) =
        jsonStringify (Json.arr [Json.str (getFunctionName q2), convexToJson a2]) := heq
    have htree := jsonStringify_inj _ _ heq2
    simp only [Json.arr.injEq, List.cons.injEq, Json.str.injEq, and_true] at htree
    rcases hne with hn | ha
    · exact hn htree.1
    · exact ha htree.2

theorem C6_witness :
    createQueryKey ⟨"q"⟩
      (ConvexValue.object [("b", ConvexValue.number 2), ("a", ConvexValue.number 1)]) =
    createQueryKey ⟨"q"⟩
      (ConvexValue.object [("a", ConvexValue.number 1), ("b", ConvexValue.number 2)])
    ∧ createQueryKey ⟨"q"⟩ ConvexValue.null ≠ createQueryKey ⟨"r"⟩ ConvexValue.null :=
  ⟨C6_key_deriver_determinism_injectivity.1 ⟨"q"⟩ _ _ (List.Perm.swap _ _ _) (by decide),
    C6_key_deriver_determinism_injectivity.2 ⟨"q"⟩ ⟨"r"⟩ ConvexValue.null
      ConvexValue.null (Or.inl (by decide))⟩

/-- Claim C7: disabled-flag pass-through.  With the feature flag false, each
of the three exported wrappers (and the loadMore reaching the consumer) is
the underlying operation: the output equals the underlying operation's output
on every input, the cache is never written, and the rendered value does not
depend on the cache contents (no cache read is observable). -/
theorem C7_disabled_flag_pass_through (key : String) (result : JsValue)
    (resultRec : List (String × JsValue)) (lm : JsValue) (numItems : Nat)
    (cache cache2 : Cache) :
    useQuerySwr_run false key result cache = useQuery_model result cache
    ∧ useQueriesSwr_run false key resultRec cache = useQueries_model resultRec cache
    ∧ usePaginatedQuerySwr_run false key result lm cache =
        usePaginatedQuery_model result cache
    ∧ loadMore_run false key numItems cache = (cache, [LoadMoreEvent.delegated numItems])
    ∧ (useQuerySwr_run false key result cache).1 = result
    ∧ (useQuerySwr_run false key result cache).2 = cache
    ∧ (useQuerySwr_run false key result cache).1 =
        (useQuerySwr_run false key result cache2).1
    ∧ (useQueriesSwr_run false key resultRec cache).2 = cache
    ∧ (useQueriesSwr_run false key resultRec cache).1 =
        (useQueriesSwr_run false key resultRec cache2).1
    ∧ (usePaginatedQuerySwr_run false key result lm cache).2 = cache
    ∧ (usePaginatedQuerySwr_run false key result lm cache).1 =
        (usePaginatedQuerySwr_run false key result lm cache2).1
    ∧ (loadMore_run false key numItems cache).1 = cache :=
  ⟨rfl, rfl, rfl, rfl, rfl, rfl, rfl, rfl, rfl, rfl, rfl, rfl⟩

/-- Claim C8, counterexample: the composite key is not the direct
serialization of the declaration (names with inline identity and encoded
arguments); at a concrete one-entry declaration the key computed by the
wrapper differs from the claimed direct serialization, because the wrapper
serializes the mapping from names to already-derived per-name key strings. -/
theorem C8_counterexample :
    queriesKey [("a", ⟨"q"⟩, ConvexValue.null)] ≠
      declarationSerializedKey [("a", ⟨"q"⟩, ConvexValue.null)] := by
  decide

/-- Claim C8 as amended: the composite key serializes, in declaration order,
the mapping from each declared name to its already-derived per-name key, so
it is a function of the ordered list of (name, per-name key) pairs; and it is
sensitive to the order in which named sub-queries are declared. -/
theorem C8_amended_composite_key :
    (∀ q1 q2 : List (String × QueryRef × ConvexValue),
      q1.map (fun e => (e.1, createQueryKey e.2.1 e.2.2)) =
        q2.map (fun e => (e.1, createQueryKey e.2.1 e.2.2)) →
      queriesKey q1 = queriesKey q2)
    ∧ (∀ (n1 n2 : String) (p1 p2 : QueryRef × ConvexValue), n1 ≠ n2 →
      queriesKey [(n1, p1), (n2, p2)] ≠ queriesKey [(n2, p2), (n1, p1)]) := by
  constructor
  · intro q1 q2 h
    have hfac : ∀ q : List (String × QueryRef × ConvexValue),
        queriesKey q = jsonStringify (Json.obj
          ((q.map (fun e => (e.1, createQueryKey e.2.1 e.2.2))).map
            (fun p => (p.1, Json.str p.2)))) := by
      intro q
      simp only [queriesKey, List.map_map]
      rfl
    rw [hfac q1, hfac q2, h]
  · intro n1 n2 p1 p2 hne heq
    have htree := jsonStringify_inj _ _ heq
    simp only [List.map_cons, List.map_nil, Json.obj.injEq, List.cons.injEq,
      Prod.mk.injEq] at htree
    exact hne htree.1.1

theorem C8_witness :
    queriesKey [] = queriesKey []
    ∧ queriesKey [("a", ⟨"q"⟩, ConvexValue.null), ("b", ⟨"q"⟩, ConvexValue.null)] ≠
      queriesKey [("b", ⟨"q"⟩, ConvexValue.null), ("a", ⟨"q"⟩, ConvexValue.null)] :=
  ⟨C8_amended_composite_key.1 [] [] rfl,
    C8_amended_composite_key.2 "a" "b" (⟨"q"⟩, ConvexValue.null)
      (⟨"q"⟩, ConvexValue.null) (by decide)⟩

/-- Claim C9: cache frame property.  Every cache write performed by a wrapper
evaluation and the delete performed by the wrapping loadMore leave the entry
under every other key unchanged (and the primitive set and delete operations
themselves have this frame property). -/
theorem C9_cache_frame (k k1 : String) (h : k1 ≠ k) :
    (∀ (cache : Cache) (v : JsValue),
      cacheGet (cacheSet cache k v) k1 = cacheGet cache k1)
    ∧ (∀ cache : Cache, cacheGet (cacheDelete cache k) k1 = cacheGet cache k1)
    ∧ (∀ (cache : Cache) (result : JsValue),
      cacheGet (useQuerySwr_eval k result cache).2 k1 = cacheGet cache k1)
    ∧ (∀ (cache : Cache) (result : List (String × JsValue)),
      cacheGet (useQueriesSwr_eval k result cache).2 k1 = cacheGet cache k1)
    ∧ (∀ (cache : Cache) (result lm : JsValue),
      cacheGet (usePaginatedQuerySwr_eval k result lm cache).2 k1 = cacheGet cache k1)
    ∧ (∀ (cache : Cache) (numItems : Nat),
      cacheGet (loadMoreSwr k numItems cache).1 k1 = cacheGet cache k1) := by
  refine ⟨?_, ?_, ?_, ?_, ?_, ?_⟩
  · intro cache v
    exact getField_setField_ne cache k k1 v h
  · intro cache
    exact getField_delField_ne cache k k1 h
  · intro cache result
    by_cases hu : isUndef result
    · simp [useQuerySwr_eval, hu]
    · have h2 : (useQuerySwr_eval k result cache).2 = cacheSet cache k result := by
        simp [useQuerySwr_eval, hu]
      rw [h2]
      exact getField_setField_ne cache k k1 result h
  · intro cache result
    by_cases hl : queriesIsLoading result
    · simp [useQueriesSwr_eval, hl]
    · have h2 : (useQueriesSwr_eval k result cache).2 =
          cacheSet cache k (JsValue.obj result) := by
        simp [useQueriesSwr_eval, hl]
      rw [h2]
      exact getField_setField_ne cache k k1 (JsValue.obj result) h
  · intro cache result lm
    by_cases hw : (!(jsEqStr (jsGet result "status") "LoadingMore") &&
        !(jsEqStr (jsGet result "status") "LoadingFirstPage")) = true
    · have h2 : (usePaginatedQuerySwr_eval k result lm cache).2 =
          cacheSet cache k result := by
        simp only [usePaginatedQuerySwr_eval, hw, if_true]
      rw [h2]
      exact getField_setField_ne cache k k1 result h
    · have h2 : (usePaginatedQuerySwr_eval k result lm cache).2 = cache := by
        simp only [usePaginatedQuerySwr_eval, hw, Bool.false_eq_true, if_false]
      rw [h2]
  · intro cache numItems
    exact getField_delField_ne cache k k1 h

theorem C9_witness :
    ("a" : String) ≠ "b"
    ∧ cacheGet (useQuerySwr_eval "b" (JsValue.str "x") [("a", JsValue.null)]).2 "a" =
      cacheGet [("a", JsValue.null)] "a"
    ∧ cacheGet (loadMoreSwr "b" 1 [("a", JsValue.null)]).1 "a" =
      cacheGet [("a", JsValue.null)] "a" :=
  ⟨by decide, (C9_cache_frame "b" "a" (by decide)).2.2.1 [("a", JsValue.null)]
      (JsValue.str "x"),
    (C9_cache_frame "b" "a" (by decide)).2.2.2.2.2 [("a", JsValue.null)] 1⟩

/-- Claim C10: paginated status masking during first-page substitution.  When
the live status is LoadingFirstPage and a non-nullish cached entry exists
under the key, the wrapper returns the cached object whole with only the
loadMore property replaced: every other property, the stored status field
included, is the cached one, so a non-LoadingFirstPage cached status is
returned as such and the in-flight first-page load is not observable from the
returned status. -/
theorem C10_paginated_status_masking (key : String) (result cachedV lm : JsValue)
    (cache : Cache)
    (hstatus : jsGet result "status" = JsValue.str "LoadingFirstPage")
    (hcache : cacheGet cache key = cachedV)
    (hnn : isNullish cachedV = false) :
    (usePaginatedQuerySwr_eval key result lm cache).1 =
      objSpreadSet cachedV "loadMore" lm
    ∧ jsGet (usePaginatedQuerySwr_eval key result lm cache).1 "loadMore" = lm
    ∧ (∀ f, f ≠ "loadMore" →
        jsGet (usePaginatedQuerySwr_eval key result lm cache).1 f = jsGet cachedV f)
    ∧ (∀ s, jsGet cachedV "status" = JsValue.str s →
        jsGet (usePaginatedQuerySwr_eval key result lm cache).1 "status" =
          JsValue.str s)
    ∧ (jsGet cachedV "status" ≠ JsValue.str "LoadingFirstPage" →
        jsGet (usePaginatedQuerySwr_eval key result lm cache).1 "status" ≠
          JsValue.str "LoadingFirstPage") := by
  have hs : jsEqStr (jsGet result "status") "LoadingFirstPage" = true := by
    rw [hstatus]
    simp [jsEqStr]
  have h1 : (usePaginatedQuerySwr_eval key result lm cache).1 =
      objSpreadSet cachedV "loadMore" lm := by
    simp [usePaginatedQuerySwr_eval, hs, hcache, nullish, hnn]
  refine ⟨h1, ?_, ?_, ?_, ?_⟩
  · rw [h1]
    exact jsGet_objSpreadSet_self cachedV "loadMore" lm
  · intro f hf
    rw [h1]
    exact jsGet_objSpreadSet_ne cachedV "loadMore" f lm hf
  · intro s hsv
    rw [h1, jsGet_objSpreadSet_ne cachedV "loadMore" "status" lm (by decide), hsv]
  · intro hne
    rw [h1, jsGet_objSpreadSet_ne cachedV "loadMore" "status" lm (by decide)]
    exact hne

theorem C10_witness :
    (usePaginatedQuerySwr_eval "k"
      (JsValue.obj [("status", JsValue.str "LoadingFirstPage")]) (JsValue.fn 7)
      [("k", JsValue.obj [("status", JsValue.str "CanLoadMore"),
        ("page", JsValue.num 1)])]).1 =
      objSpreadSet (JsValue.obj [("status", JsValue.str "CanLoadMore"),
        ("page", JsValue.num 1)]) "loadMore" (JsValue.fn 7)
    ∧ jsGet (usePaginatedQuerySwr_eval "k"
        (JsValue.obj [("status", JsValue.str "LoadingFirstPage")]) (JsValue.fn 7)
        [("k", JsValue.obj [("status", JsValue.str "CanLoadMore"),
          ("page", JsValue.num 1)])]).1 "status" ≠
      JsValue.str "LoadingFirstPage" :=
  ⟨(C10_paginated_status_masking "k"
      (JsValue.obj [("status", JsValue.str "LoadingFirstPage")])
      (JsValue.obj [("status", JsValue.str "CanLoadMore"), ("page", JsValue.num 1)])
      (JsValue.fn 7)
      [("k", JsValue.obj [("status", JsValue.str "CanLoadMore"),
        ("page", JsValue.num 1)])] rfl rfl rfl).1,
    (C10_paginated_status_masking "k"
      (JsValue.obj [("status", JsValue.str "LoadingFirstPage")])
      (JsValue.obj [("status", JsValue.str "CanLoadMore"), ("page", JsValue.num 1)])
      (JsValue.fn 7)
      [("k", JsValue.obj [("status", JsValue.str "CanLoadMore"),
        ("page", JsValue.num 1)])] rfl rfl rfl).2.2.2.2
      (fun hh => absurd (JsValue.str.inj hh) (by decide))⟩
